import Mathlib

/-!
Verification of the course-settings module (`modules/courses/settings.py`).

The development shallowly embeds the data model and the handler logic:

* JSON-decoded values (the course settings document is a nested mapping of
  string keys to scalars, mappings and sequences) become the inductive type
  `JsonValue`; mappings are association lists in insertion order, mirroring
  Python dict semantics (unique keys, in-place update, ordered iteration).
* `HtmlHookRESTHandler._process_delete_internal` becomes
  `process_delete_internal`; the hook path builder inside
  `HtmlHookRESTHandler.process_put` becomes `process_put_build`;
  `CourseYamlRESTHandler.put`/`delete` become `courseYaml_put` /
  `courseYaml_delete`, parameterised over the pieces that live outside this
  module (JSON parsing, schema conversion/validation, settings persistence),
  which are passed in as explicit functions.
-/

inductive JsonValue : Type where
  | null
  | bool (b : Bool)
  | num (n : Int)
  | str (s : String)
  | list (xs : List JsonValue)
  | dict (entries : List (String × JsonValue))
deriving Repr

abbrev Entries := List (String × JsonValue)

/-- Python truthiness of a JSON-decoded value: `None`, `False`, `0`, `''`,
`[]` and `{}` are falsy.  (JSON numbers are modelled as integers.) -/
def jsonFalsy : JsonValue → Bool
  | .null => true
  | .bool b => !b
  | .num n => n == 0
  | .str s => s == ""
  | .list xs => xs.isEmpty
  | .dict d => d.isEmpty

/-- `d[k]` lookup on a Python dict, `none` when the key is missing. -/
def dictGet : Entries → String → Option JsonValue
  | [], _ => none
  | (k, v) :: rest, key => if k = key then some v else dictGet rest key

/-- `d[k] = v` on a Python dict: replace in place when the key exists,
append otherwise. -/
def dictSet : Entries → String → JsonValue → Entries
  | [], key, v => [(key, v)]
  | (k, w) :: rest, key, v =>
    if k = key then (k, v) :: rest else (k, w) :: dictSet rest key v

/-- `del d[k]` on a Python dict. -/
def dictErase : Entries → String → Entries
  | [], _ => []
  | (k, w) :: rest, key =>
    if k = key then rest else (k, w) :: dictErase rest key

/-- The keys of a mapping, in order. -/
def dictKeys (d : Entries) : List String := d.map Prod.fst

/-- Whether a value is a nested mapping (`type(v) == dict` in the source). -/
def JsonValue.isDict : JsonValue → Bool
  | .dict _ => true
  | _ => false

/-- Modelled from the spec: the fixed hook key-path separator
(`controllers.utils.HtmlHooks.SEPARATOR`, defined outside `src/`); the spec's
examples split `"a.b.c"` into `a`, `b`, `c`. -/
def SEPARATOR : Char := '.'

/-- Python's `key.split(sep)` for the one-character separator: every
occurrence of the separator splits, so `""` gives `[""]` and `"a..b"` gives
`["a", "", "b"]`. -/
def keySplit (key : String) : List String :=
  (key.toList.foldr
    (fun c acc =>
      if c = SEPARATOR then [] :: acc
      else
        match acc with
        | a :: as => (c :: a) :: as
        | [] => [[c]])
    [[]]).map (fun cs => String.mk cs)

/-- `HtmlHookRESTHandler._process_delete_internal`, on the already-split key.
The source iterates the path segments outermost to innermost over a cursor
`pruned_dict` into the document: a segment bound to a mapping moves the
cursor into it, a segment bound to a non-mapping is deleted, an absent
segment does nothing; in every case the loop continues with the next
segment (there is no early exit in the source). -/
def process_delete_internal : Entries → List String → Entries
  | d, [] => d
  | d, s :: rest =>
    match dictGet d s with
    | some (.dict sub) => dictSet d s (.dict (process_delete_internal sub rest))
    | some _ => process_delete_internal (dictErase d s) rest
    | none => process_delete_internal d rest

/-- The path-building loop of `HtmlHookRESTHandler.process_put`: walk the
segments in reverse, wrapping the accumulated value in a one-entry mapping
at each step. -/
def process_put_build (segs : List String) (content : JsonValue) : JsonValue :=
  segs.reverse.foldl (fun acc element => .dict [(element, acc)]) content

/-- The spec's description of the built value: a right-nested chain of
one-entry mappings ending in the leaf
(`\x7bsegment_0: \x7bsegment_1: \x7b... leaf_value\x7d\x7d\x7d`). -/
def specNest : List String → JsonValue → JsonValue
  | [], v => v
  | s :: rest, v => .dict [(s, specNest rest v)]

/-- A chain of nested one-entry mappings with nothing at the end:
what pruning a freshly built path leaves behind. -/
def emptyChain : List String → Entries
  | [] => []
  | s :: rest => [(s, .dict (emptyChain rest))]

/-- Follow a key path down through nested mappings and return the value at
its end, `none` when the path leaves the document. -/
def getPath : Entries → List String → Option JsonValue
  | d, [] => some (.dict d)
  | d, s :: rest =>
    match dictGet d s with
    | none => none
    | some v =>
      match rest with
      | [] => some v
      | _ :: _ =>
        match v with
        | .dict sub => getPath sub rest
        | _ => none

/-- Every segment of the path, the final one included, resolves to a nested
mapping. -/
def allDictsAlong : Entries → List String → Bool
  | _, [] => true
  | d, s :: rest =>
    match dictGet d s with
    | some (.dict sub) => allDictsAlong sub rest
    | _ => false

/-- The path descends through nested mappings and ends at a key bound to a
non-mapping value.  The final count condition states that the last mapping
holds its key only once; it is automatic for Python dicts and records that
invariant for the association-list model. -/
def leafRemovable : Entries → List String → Bool
  | _, [] => false
  | d, s :: rest =>
    match dictGet d s, rest with
    | some (.dict sub), _ :: _ => leafRemovable sub rest
    | some (.dict _), [] => false
    | some _, [] => decide ((dictKeys d).count s ≤ 1)
    | some _, _ :: _ => false
    | none, _ => false

example : keySplit "a.b.c" = ["a", "b", "c"] := by decide
example : keySplit "" = [""] := by decide
example : process_delete_internal
    [("a", .dict [("b", .dict [("c", .str "<p>hi</p>")])])] ["a", "b", "c"] =
    [("a", .dict [("b", .dict [])])] := rfl
example : process_delete_internal
    [("a", .str "x"), ("b", .str "y")] ["a", "b"] = [] := rfl

/-- Modelled from the spec: the reserved top-level key under which hook
content is nested (`controllers.utils.HtmlHooks.HTML_HOOKS`, defined
outside `src/`). -/
def HTML_HOOKS : String := "html_hooks"

/-- Modelled from the spec: `REGISTRY.convert_json_to_entity` for the hook
field registry (`common.schema_fields`, outside `src/`).  The registry holds
the single optional field `hook_content`, which is copied from the payload
object when present; nothing else is produced. -/
def hookConvertJsonToEntity (payload : JsonValue) : Entries :=
  match payload with
  | .dict d =>
    match dictGet d "hook_content" with
    | some v => [("hook_content", v)]
    | none => []
  | _ => []

/-- What a `process_put` override hands back to `CourseYamlRESTHandler.put`:
the JSON responses it sent itself plus the returned `request_data`
(`none` models Python `None`).  `error` models an uncaught Python
exception. -/
inductive ProcessPutRet : Type where
  | ret (responses : List (Nat × String)) (requestData : Option Entries)
  | error

/-- Outcome of a whole handler invocation: the JSON responses sent, in
order, and the settings document handed to a *successful*
`save_settings` (`none` when nothing was persisted).  `uncaughtError`
models an uncaught Python exception (the framework then answers 500). -/
inductive HandlerOutcome : Type where
  | result (responses : List (Nat × String)) (saved : Option Entries)
  | uncaughtError

/-- Modelled from the spec: `courses.deep_dict_merge`
(`models/courses.py`, outside `src/`): update keys recursively
overwrite/extend the corresponding paths of the current mapping — two
mappings merge key by key, anything else is overwritten by the update's
value — and untouched keys stay intact. -/
def deepDictMerge : Entries → Entries → Entries
  | [], real => real
  | (k, v) :: us, real =>
    match dictGet real k, v with
    | some (.dict rsub), .dict usub =>
      deepDictMerge us (dictSet real k (.dict (deepDictMerge usub rsub)))
    | _, _ => deepDictMerge us (dictSet real k v)
termination_by u _ => sizeOf u
decreasing_by
  all_goals simp_wf
  all_goals omega

/-- `HtmlHookRESTHandler.process_put`: require `hook_content` in the
converted payload and a non-blank `key` in the request object (each failure
answers 400 and returns `None`), then nest the content along the split key
and place the result under the reserved top-level key. -/
def htmlHook_process_put (request : Entries) (payload : JsonValue) : ProcessPutRet :=
  let request_data := hookConvertJsonToEntity payload
  match dictGet request_data "hook_content" with
  | none => .ret [(400, "Payload missing \"hook_content\" parameter.")] none
  | some content =>
    let key := (dictGet request "key").getD .null
    if jsonFalsy key then
      .ret [(400, "Blank or missing \"key\" parameter.")] none
    else
      match key with
      | .str k =>
        .ret [] (some [(HTML_HOOKS, process_put_build (keySplit k) content)])
      | _ => .error

/-- `CourseYamlRESTHandler.postprocess_put`: the base class does nothing. -/
def courseYaml_postprocess_put (course_settings : Entries) (_request : Entries) :
    Entries :=
  course_settings

/-- `HtmlHookRESTHandler.postprocess_put`: when the request carries a
non-blank key, prune a legacy copy of the hook that starts at the root of
the merged settings document.  (A non-string truthy key would crash
`key.split` in Python; that point is unreachable because `process_put`
already rejected such keys, and the model leaves the document unchanged
there.) -/
def htmlHook_postprocess_put (course_settings : Entries) (request : Entries) :
    Entries :=
  match dictGet request "key" with
  | some (.str k) =>
    if k = "" then course_settings
    else process_delete_internal course_settings (keySplit k)
  | _ => course_settings

/-- `HtmlHookRESTHandler.process_delete`: prune the key path once inside the
reserved html-hooks sub-mapping (mutated in place in the source, hence the
`dictSet`) and once more starting at the top level of the document.  When
the reserved key is bound to a non-mapping, iterating `element in
pruned_dict` over it raises in Python for every non-string value (and
indexing raises for strings too as soon as a segment occurs inside the
string); the model folds these cases into an uncaught error. -/
def htmlHook_process_delete (course_dict : Entries) (key : String) :
    Option Entries :=
  let segs := keySplit key
  match dictGet course_dict HTML_HOOKS with
  | some (.dict sub) =>
    some (process_delete_internal
      (dictSet course_dict HTML_HOOKS (.dict (process_delete_internal sub segs)))
      segs)
  | none => some (process_delete_internal course_dict segs)
  | some _ => none

/-- `CourseSettingsRESTHandler.get_group_id`. -/
def get_group_id (email : String) : Option String :=
  if email = "" ∨ (email.splitOn "@googlegroups.com").length < 2 then none
  else some ((email.splitOn "@").headD "")

/-- `CourseSettingsRESTHandler.get_groups_web_url` (the caller-side
truthiness check on the group id is folded in). -/
def get_groups_web_url (email : String) : Option String :=
  match get_group_id email with
  | some gid =>
    if gid = "" then none else some ("https://groups.google.com/group/" ++ gid)
  | none => none

/-- `CourseSettingsRESTHandler.get_groups_embed_url`. -/
def get_groups_embed_url (email : String) : Option String :=
  match get_group_id email with
  | some gid =>
    if gid = "" then none
    else some ("https://groups.google.com/forum/embed/?place=forum/" ++ gid)
  | none => none

/-- `CourseSettingsRESTHandler._process_course_data`: when a forum email is
present, derive the forum web and embed URLs and store them in the course
sub-mapping.  (The schema conversion, outside `src/`, guarantees the field
is a string.) -/
def process_course_data (course_data : Entries) : Entries :=
  match dictGet course_data "forum_email" with
  | some (.str forum_email) =>
    let d1 :=
      match get_groups_web_url forum_email with
      | some url => dictSet course_data "forum_url" (.str url)
      | none => course_data
    match get_groups_embed_url forum_email with
    | some url => dictSet d1 "forum_embed_url" (.str url)
    | none => d1
  | _ => course_data

/-- `CourseSettingsRESTHandler.process_put`, parameterised over the
schema-driven conversion and validation (`create_settings_schema`,
`convert_json_to_entity`, `validate` live outside `src/`): a validation
error answers 400 and returns `None`; otherwise the course sub-mapping is
post-processed and the converted data returned.
(`_process_extra_locales` only writes locale labels to external storage
and does not change `request_data`.) -/
def courseSettings_process_put (convert : JsonValue → Entries)
    (validate : Entries → List String) (_request : Entries)
    (payload : JsonValue) : ProcessPutRet :=
  let request_data := convert payload
  let errors := validate request_data
  if errors = [] then
    let request_data :=
      match dictGet request_data "course" with
      | some (.dict cd) => dictSet request_data "course" (.dict (process_course_data cd))
      | _ => request_data
    .ret [] (some request_data)
  else
    .ret [(400, "Invalid data: \n" ++ String.intercalate "\n" errors)] none

/-- `CourseYamlRESTHandler.put`, parameterised over `transforms.loads`
(outside `src/`; `none` models a `ValueError`), the subclass's
`process_put`/`postprocess_put`, and `Course.save_settings` (outside
`src/`; it persists and returns true exactly when the document validates).
`xsrfOk` is the outcome of `assert_xsrf_token_or_fail`, which sends its own
error response from framework code when it fails; `canEdit` is the
permission check.  A parsed request or payload that is not a JSON object
makes the Python attribute accesses raise, hence `uncaughtError`.
The schema redaction step between `process_put` and the merge only mutates
the local `payload`/schema and is dropped.  Note the source sends
`200 'Saved.'` even on the `save_settings` failure path: there is no
`return` after the 412 response. -/
def courseYaml_put (loads : String → Option JsonValue)
    (process_put : Entries → JsonValue → ProcessPutRet)
    (postprocess_put : Entries → Entries → Entries)
    (saveOk : Entries → Bool)
    (requestParam : String) (xsrfOk canEdit : Bool)
    (courseDict : Entries) : HandlerOutcome :=
  if requestParam = "" then
    .result [(400, "Missing \"request\" parameter.")] none
  else
    match loads requestParam with
    | none => .result [(400, "Malformed \"request\" parameter.")] none
    | some (.dict request) =>
      let key := (dictGet request "key").getD .null
      if jsonFalsy key then
        .result [(400, "Request missing \"key\" parameter.")] none
      else
        let payloadParam := (dictGet request "payload").getD .null
        if jsonFalsy payloadParam then
          .result [(400, "Request missing \"payload\" parameter.")] none
        else
          match payloadParam with
          | .str ps =>
            match loads ps with
            | none => .result [(400, "Malformed \"payload\" parameter.")] none
            | some payload =>
              if !xsrfOk then .result [] none
              else if !canEdit then .result [(401, "Access denied.")] none
              else
                match process_put request payload with
                | .error => .uncaughtError
                | .ret rs requestData =>
                  match requestData with
                  | some rd =>
                    if rd.isEmpty then .result rs none
                    else
                      let cs := deepDictMerge rd courseDict
                      let cs := postprocess_put cs request
                      if saveOk cs then
                        .result (rs ++ [(200, "Saved.")]) (some cs)
                      else
                        .result (rs ++ [(412, "Validation error."), (200, "Saved.")]) none
                  | none => .result rs none
          | _ => .uncaughtError
    | some _ => .uncaughtError

/-- `CourseSettingsRESTHandler.is_deletion_allowed`. -/
def courseSettings_is_deletion_allowed : Bool := false

/-- `HtmlHookRESTHandler.is_deletion_allowed`. -/
def htmlHook_is_deletion_allowed : Bool := true

/-- `CourseYamlRESTHandler.delete`: check the token (on failure the
framework sends its own error response, outside `src/`, modelled as no
recorded response), then permission and the subclass's deletion policy
(either failure answers 401), then save what `process_delete` produced —
`200 'Deleted.'` on a successful save and no response at all on a failed
one.  `processDelete` is the value the subclass's `process_delete` computed
(`none` models an uncaught exception; `CourseSettingsRESTHandler` defines
no `process_delete` at all, but never reaches the call). -/
def courseYaml_delete (is_deletion_allowed : Bool)
    (processDelete : Option Entries) (saveOk : Entries → Bool)
    (xsrfOk canEdit : Bool) : HandlerOutcome :=
  if !xsrfOk then .result [] none
  else if !canEdit || !is_deletion_allowed then
    .result [(401, "Access denied.")] none
  else
    match processDelete with
    | some entity =>
      if saveOk entity then .result [(200, "Deleted.")] (some entity)
      else .result [] none
    | none => .uncaughtError

theorem dictGet_dictSet_self (d : Entries) (k : String) (v : JsonValue) :
    dictGet (dictSet d k v) k = some v := by
  induction d with
  | nil => simp [dictSet, dictGet]
  | cons hd tl ih =>
    obtain ⟨a, w⟩ := hd
    by_cases h : a = k
    · subst h
      simp [dictSet, dictGet]
    · simp [dictSet, dictGet, h, ih]

theorem dictGet_dictSet_ne (d : Entries) {k k' : String} (v : JsonValue)
    (h : k' ≠ k) : dictGet (dictSet d k v) k' = dictGet d k' := by
  induction d with
  | nil => simp [dictSet, dictGet, Ne.symm h]
  | cons hd tl ih =>
    obtain ⟨a, w⟩ := hd
    by_cases ha : a = k
    · subst ha
      simp [dictSet, dictGet, Ne.symm h]
    · simp [dictSet, dictGet, ha, ih]

theorem dictGet_dictErase_ne (d : Entries) {k k' : String}
    (h : k' ≠ k) : dictGet (dictErase d k) k' = dictGet d k' := by
  induction d with
  | nil => simp [dictErase, dictGet]
  | cons hd tl ih =>
    obtain ⟨a, w⟩ := hd
    by_cases ha : a = k
    · subst ha
      simp [dictErase, dictGet, Ne.symm h]
    · simp [dictErase, dictGet, ha, ih]

theorem dictGet_eq_none_of_not_mem {d : Entries} {k : String}
    (h : k ∉ dictKeys d) : dictGet d k = none := by
  induction d with
  | nil => rfl
  | cons hd tl ih =>
    obtain ⟨a, w⟩ := hd
    simp only [dictKeys, List.map_cons, List.mem_cons] at h
    push_neg at h
    have h2 : k ∉ dictKeys tl := by
      simpa [dictKeys] using h.2
    simp [dictGet, Ne.symm h.1, ih h2]

theorem mem_dictKeys_of_get {d : Entries} {k : String} {v : JsonValue}
    (h : dictGet d k = some v) : k ∈ dictKeys d := by
  by_contra hmem
  rw [dictGet_eq_none_of_not_mem hmem] at h
  exact Option.noConfusion h

theorem dictGet_dictErase_self {d : Entries} {k : String}
    (h : (dictKeys d).count k ≤ 1) : dictGet (dictErase d k) k = none := by
  induction d with
  | nil => rfl
  | cons hd tl ih =>
    obtain ⟨a, w⟩ := hd
    by_cases ha : a = k
    · subst ha
      simp only [dictKeys, List.map_cons, List.count_cons_self] at h
      have h0 : (List.map Prod.fst tl).count a = 0 :=
        Nat.le_zero.mp (Nat.le_of_succ_le_succ h)
      have hnm : a ∉ dictKeys tl := by
        simpa [dictKeys] using List.count_eq_zero.mp h0
      simp [dictErase, dictGet_eq_none_of_not_mem hnm]
    · simp only [dictKeys, List.map_cons] at h
      have h2 : (dictKeys tl).count k ≤ 1 := by
        simpa [dictKeys] using
          le_trans (List.count_le_count_cons k a (List.map Prod.fst tl)) h
      simp [dictErase, dictGet, ha, ih h2]

theorem dictKeys_dictSet_of_get {d : Entries} {k : String} {v0 : JsonValue}
    (v : JsonValue) (h : dictGet d k = some v0) :
    dictKeys (dictSet d k v) = dictKeys d := by
  induction d with
  | nil => exact absurd h (by simp [dictGet])
  | cons hd tl ih =>
    obtain ⟨a, w⟩ := hd
    by_cases ha : a = k
    · subst ha
      simp [dictSet, dictKeys]
    · simp only [dictGet, if_neg ha] at h
      have ih2 := ih h
      simp only [dictKeys] at ih2
      simp [dictSet, dictKeys, ha, ih2]

theorem dictSet_get_same {d : Entries} {k : String} {v : JsonValue}
    (h : dictGet d k = some v) : dictSet d k v = d := by
  induction d with
  | nil => exact absurd h (by simp [dictGet])
  | cons hd tl ih =>
    obtain ⟨a, w⟩ := hd
    by_cases ha : a = k
    · subst ha
      have hv : w = v := by simpa [dictGet] using h
      subst hv
      simp [dictSet]
    · simp only [dictGet, if_neg ha] at h
      simp [dictSet, ha, ih h]

theorem dictKeys_dictErase_sublist (d : Entries) (k : String) :
    (dictKeys (dictErase d k)).Sublist (dictKeys d) := by
  induction d with
  | nil => simp [dictErase]
  | cons hd tl ih =>
    obtain ⟨a, w⟩ := hd
    by_cases ha : a = k
    · subst ha
      simp only [dictErase, if_pos rfl, dictKeys, List.map_cons]
      exact List.sublist_cons_self _ _
    · simpa [dictErase, dictKeys, ha] using ih.cons₂ a

theorem dictGet_prune_of_not_mem (segs : List String) (d : Entries) {k : String}
    (h : k ∉ segs) : dictGet (process_delete_internal d segs) k = dictGet d k := by
  induction segs generalizing d with
  | nil => rfl
  | cons s rest ih =>
    have h' : ¬(k = s ∨ k ∈ rest) := by simpa [List.mem_cons] using h
    push_neg at h'
    obtain ⟨hne, hrest⟩ := h'
    cases hget : dictGet d s with
    | none =>
      simp only [process_delete_internal, hget]
      exact ih d hrest
    | some v =>
      cases v
      case dict sub =>
        simp only [process_delete_internal, hget]
        exact dictGet_dictSet_ne d _ hne
      all_goals
        simp only [process_delete_internal, hget]
        rw [ih _ hrest, dictGet_dictErase_ne d hne]

theorem get_isSome_of_mem {d : Entries} {k : String}
    (h : k ∈ dictKeys d) : ∃ v, dictGet d k = some v := by
  induction d with
  | nil => simp [dictKeys] at h
  | cons hd tl ih =>
    obtain ⟨a, w⟩ := hd
    by_cases ha : a = k
    · exact ⟨w, by simp [dictGet, ha]⟩
    · have hm : k ∈ dictKeys tl := by
        simpa [dictKeys, Ne.symm ha] using h
      obtain ⟨v, hv⟩ := ih hm
      exact ⟨v, by simp [dictGet, ha, hv]⟩

theorem mem_dictKeys_prune_of_not_mem {segs : List String} {d : Entries}
    {k : String} (hmem : k ∈ dictKeys d) (h : k ∉ segs) :
    k ∈ dictKeys (process_delete_internal d segs) := by
  obtain ⟨v, hv⟩ := get_isSome_of_mem hmem
  exact mem_dictKeys_of_get
    (show dictGet (process_delete_internal d segs) k = some v by
      rw [dictGet_prune_of_not_mem segs d h, hv])

theorem dictKeys_prune_subset (segs : List String) (d : Entries) {k : String}
    (h : k ∈ dictKeys (process_delete_internal d segs)) : k ∈ dictKeys d := by
  induction segs generalizing d with
  | nil => exact h
  | cons s rest ih =>
    cases hget : dictGet d s with
    | none =>
      rw [process_delete_internal, hget] at h
      exact ih d h
    | some v =>
      cases v
      case dict sub =>
        rw [process_delete_internal, hget,
          dictKeys_dictSet_of_get _ hget] at h
        exact h
      all_goals
        rw [process_delete_internal, hget] at h
        exact (dictKeys_dictErase_sublist d s).mem (ih _ h)

theorem getPath_cons_congr {d1 d2 : Entries} {q : String} (p : List String)
    (h : dictGet d1 q = dictGet d2 q) :
    getPath d1 (q :: p) = getPath d2 (q :: p) := by
  simp only [getPath, h]

theorem eq_dict_of_isDict {v : JsonValue} (h : v.isDict = true) :
    ∃ e, v = .dict e := by
  cases v <;> first
    | exact ⟨_, rfl⟩
    | simp [JsonValue.isDict] at h

theorem prune_cons_none {d : Entries} {s : String}
    (hget : dictGet d s = none) (rest : List String) :
    process_delete_internal d (s :: rest) = process_delete_internal d rest := by
  simp only [process_delete_internal, hget]

theorem prune_cons_dict {d : Entries} {s : String} {sub : Entries}
    (hget : dictGet d s = some (.dict sub)) (rest : List String) :
    process_delete_internal d (s :: rest) =
      dictSet d s (.dict (process_delete_internal sub rest)) := by
  simp only [process_delete_internal, hget]

theorem prune_cons_nondict {d : Entries} {s : String} {v : JsonValue}
    (hget : dictGet d s = some v) (hv : v.isDict = false) (rest : List String) :
    process_delete_internal d (s :: rest) =
      process_delete_internal (dictErase d s) rest := by
  cases v
  all_goals simp only [process_delete_internal, hget]
  simp [JsonValue.isDict] at hv

theorem getPath_cons_none {d : Entries} {s : String}
    (hget : dictGet d s = none) (p : List String) :
    getPath d (s :: p) = none := by
  simp [getPath, hget]

theorem getPath_cons_last {d : Entries} {s : String} {v : JsonValue}
    (hget : dictGet d s = some v) : getPath d [s] = some v := by
  simp [getPath, hget]

theorem getPath_cons_dict {d : Entries} {s : String} {sub : Entries}
    (hget : dictGet d s = some (.dict sub)) {p : List String} (hp : p ≠ []) :
    getPath d (s :: p) = getPath sub p := by
  cases p with
  | nil => exact absurd rfl hp
  | cons r p' => simp only [getPath, hget]

theorem getPath_cons_nondict {d : Entries} {s : String} {v : JsonValue}
    (hget : dictGet d s = some v) (hv : v.isDict = false) {p : List String}
    (hp : p ≠ []) : getPath d (s :: p) = none := by
  cases p with
  | nil => exact absurd rfl hp
  | cons r p' =>
    cases v
    all_goals simp only [getPath, hget]
    simp [JsonValue.isDict] at hv

theorem getPath_dict_preserved (segs : List String) (d : Entries)
    (p : List String) (sub : Entries)
    (h : getPath d p = some (.dict sub)) :
    ∃ sub2, getPath (process_delete_internal d segs) p = some (.dict sub2) := by
  induction segs generalizing d p sub with
  | nil => exact ⟨sub, h⟩
  | cons s rest ih =>
    cases p with
    | nil => exact ⟨process_delete_internal d (s :: rest), rfl⟩
    | cons q p' =>
      cases hget : dictGet d s with
      | none =>
        rw [prune_cons_none hget]
        exact ih d (q :: p') sub h
      | some v =>
        by_cases hqs : q = s
        · subst hqs
          cases hd : v.isDict with
          | true =>
            obtain ⟨sub0, rfl⟩ := eq_dict_of_isDict hd
            rw [prune_cons_dict hget]
            cases p' with
            | nil =>
              exact ⟨process_delete_internal sub0 rest,
                getPath_cons_last (dictGet_dictSet_self d q _)⟩
            | cons r p'' =>
              rw [getPath_cons_dict hget (by simp)] at h
              obtain ⟨sub2, h2⟩ := ih sub0 (r :: p'') sub h
              refine ⟨sub2, ?_⟩
              rw [getPath_cons_dict (dictGet_dictSet_self d q _) (by simp)]
              exact h2
          | false =>
            exfalso
            cases p' with
            | nil =>
              rw [getPath_cons_last hget] at h
              have hv := Option.some.inj h
              rw [hv] at hd
              simp [JsonValue.isDict] at hd
            | cons r p'' =>
              rw [getPath_cons_nondict hget hd (by simp)] at h
              exact Option.noConfusion h
        · cases hd : v.isDict with
          | true =>
            obtain ⟨sub0, rfl⟩ := eq_dict_of_isDict hd
            rw [prune_cons_dict hget]
            exact ⟨sub, by
              rw [getPath_cons_congr p' (dictGet_dictSet_ne d _ hqs)]
              exact h⟩
          | false =>
            rw [prune_cons_nondict hget hd]
            exact ih (dictErase d s) (q :: p') sub
              (by rw [getPath_cons_congr p' (dictGet_dictErase_ne d hqs)]; exact h)

theorem leafRemovable_cons_none {d : Entries} {s : String}
    (hget : dictGet d s = none) (rest : List String) :
    leafRemovable d (s :: rest) = false := by
  cases rest <;> simp only [leafRemovable, hget]

theorem leafRemovable_last_dict {d : Entries} {s : String} {sub : Entries}
    (hget : dictGet d s = some (.dict sub)) :
    leafRemovable d [s] = false := by
  simp only [leafRemovable, hget]

theorem leafRemovable_last_nondict {d : Entries} {s : String} {v : JsonValue}
    (hget : dictGet d s = some v) (hv : v.isDict = false) :
    leafRemovable d [s] = decide ((dictKeys d).count s ≤ 1) := by
  cases v
  all_goals simp only [leafRemovable, hget]
  simp [JsonValue.isDict] at hv

theorem leafRemovable_cons_dict {d : Entries} {s : String} {sub : Entries}
    (hget : dictGet d s = some (.dict sub)) (r : String) (rs : List String) :
    leafRemovable d (s :: r :: rs) = leafRemovable sub (r :: rs) := by
  simp only [leafRemovable, hget]

theorem leafRemovable_cons_nondict {d : Entries} {s : String} {v : JsonValue}
    (hget : dictGet d s = some v) (hv : v.isDict = false) (r : String)
    (rs : List String) : leafRemovable d (s :: r :: rs) = false := by
  cases v
  all_goals simp only [leafRemovable, hget]
  simp [JsonValue.isDict] at hv

theorem getPath_prune_of_leafRemovable (segs : List String) (d : Entries)
    (h : leafRemovable d segs = true) :
    getPath (process_delete_internal d segs) segs = none := by
  induction segs generalizing d with
  | nil => exact absurd h (by simp [leafRemovable])
  | cons s rest ih =>
    cases hget : dictGet d s with
    | none =>
      rw [leafRemovable_cons_none hget] at h
      exact Bool.noConfusion h
    | some v =>
      cases hd : v.isDict with
      | true =>
        obtain ⟨sub, rfl⟩ := eq_dict_of_isDict hd
        cases rest with
        | nil =>
          rw [leafRemovable_last_dict hget] at h
          exact Bool.noConfusion h
        | cons r rs =>
          rw [leafRemovable_cons_dict hget] at h
          rw [prune_cons_dict hget,
            getPath_cons_dict (dictGet_dictSet_self d s _) (by simp)]
          exact ih sub h
      | false =>
        cases rest with
        | nil =>
          have hc : (dictKeys d).count s ≤ 1 := by
            rw [leafRemovable_last_nondict hget hd] at h
            exact of_decide_eq_true h
          rw [prune_cons_nondict hget hd,
            show process_delete_internal (dictErase d s) [] = dictErase d s from rfl,
            getPath_cons_none (dictGet_dictErase_self hc)]
        | cons r rs =>
          rw [leafRemovable_cons_nondict hget hd] at h
          exact Bool.noConfusion h

theorem leafRemovable_dictSet_ne {d : Entries} {a : String} {v0 : JsonValue}
    (w : JsonValue) (h0 : dictGet d a = some v0) {s : String} (hne : s ≠ a)
    (rest : List String) :
    leafRemovable (dictSet d a w) (s :: rest) = leafRemovable d (s :: rest) := by
  have hg : dictGet (dictSet d a w) s = dictGet d s := dictGet_dictSet_ne d w hne
  have hk : dictKeys (dictSet d a w) = dictKeys d := dictKeys_dictSet_of_get w h0
  cases rest with
  | nil =>
    cases hget : dictGet d s with
    | none =>
      rw [leafRemovable_cons_none (hg.trans hget), leafRemovable_cons_none hget]
    | some v =>
      cases hd : v.isDict with
      | true =>
        obtain ⟨sub, rfl⟩ := eq_dict_of_isDict hd
        rw [leafRemovable_last_dict (hg.trans hget), leafRemovable_last_dict hget]
      | false =>
        rw [leafRemovable_last_nondict (hg.trans hget) hd,
          leafRemovable_last_nondict hget hd, hk]
  | cons r rs =>
    cases hget : dictGet d s with
    | none =>
      rw [leafRemovable_cons_none (hg.trans hget), leafRemovable_cons_none hget]
    | some v =>
      cases hd : v.isDict with
      | true =>
        obtain ⟨sub, rfl⟩ := eq_dict_of_isDict hd
        rw [leafRemovable_cons_dict (hg.trans hget) r rs,
          leafRemovable_cons_dict hget r rs]
      | false =>
        rw [leafRemovable_cons_nondict (hg.trans hget) hd r rs,
          leafRemovable_cons_nondict hget hd r rs]

theorem allDicts_cons_dict {d : Entries} {s : String} {sub : Entries}
    (hget : dictGet d s = some (.dict sub)) (rest : List String) :
    allDictsAlong d (s :: rest) = allDictsAlong sub rest := by
  simp only [allDictsAlong, hget]

theorem allDicts_cons_nondict {d : Entries} {s : String} {v : JsonValue}
    (hget : dictGet d s = some v) (hv : v.isDict = false) (rest : List String) :
    allDictsAlong d (s :: rest) = false := by
  cases v
  all_goals simp only [allDictsAlong, hget]
  simp [JsonValue.isDict] at hv

theorem prune_allDicts (segs : List String) (d : Entries)
    (h : allDictsAlong d segs = true) : process_delete_internal d segs = d := by
  induction segs generalizing d with
  | nil => rfl
  | cons s rest ih =>
    cases hget : dictGet d s with
    | none =>
      rw [show allDictsAlong d (s :: rest) = false by
        cases rest <;> simp only [allDictsAlong, hget]] at h
      exact Bool.noConfusion h
    | some v =>
      cases hd : v.isDict with
      | true =>
        obtain ⟨sub, rfl⟩ := eq_dict_of_isDict hd
        rw [allDicts_cons_dict hget] at h
        rw [prune_cons_dict hget, ih sub h]
        exact dictSet_get_same hget
      | false =>
        rw [allDicts_cons_nondict hget hd] at h
        exact Bool.noConfusion h

theorem process_put_build_eq_specNest (segs : List String) (v : JsonValue) :
    process_put_build segs v = specNest segs v := by
  induction segs with
  | nil => rfl
  | cons s rest ih =>
    have hstep : process_put_build (s :: rest) v =
        .dict [(s, process_put_build rest v)] := by
      simp [process_put_build, List.reverse_cons, List.foldl_append]
    rw [hstep, ih]
    rfl

theorem prune_specNest (rest : List String) (s : String) (v : JsonValue)
    (hv : v.isDict = false) :
    process_delete_internal [(s, specNest rest v)] (s :: rest) =
      emptyChain ((s :: rest).dropLast) := by
  induction rest generalizing s with
  | nil =>
    rw [show specNest [] v = v from rfl,
      prune_cons_nondict (show dictGet [(s, v)] s = some v by simp [dictGet]) hv,
      show dictErase [(s, v)] s = [] by simp [dictErase]]
    rfl
  | cons r rs ih =>
    have hget : dictGet [(s, specNest (r :: rs) v)] s =
        some (.dict [(r, specNest rs v)]) := by
      simp [dictGet, specNest]
    rw [prune_cons_dict hget, ih r]
    simp [dictSet, emptyChain]

theorem getPath_singleton (d : Entries) (k : String) :
    getPath d [k] = dictGet d k := by
  cases hg : dictGet d k with
  | none => exact getPath_cons_none hg []
  | some v => exact getPath_cons_last hg

/-- Claim C1 counterexample: building the path `a.b.c` with leaf
`<p>hi</p>` and then pruning the same path does NOT yield an empty
document — the leaf is removed but the enclosing one-entry mappings stay,
leaving the non-empty document `a ↦ (b ↦ \x7b\x7d)`. -/
theorem c1_build_then_prune_not_empty :
    process_put_build ["a", "b", "c"] (.str "<p>hi</p>") =
      .dict [("a", .dict [("b", .dict [("c", .str "<p>hi</p>")])])] ∧
    process_delete_internal
      [("a", .dict [("b", .dict [("c", .str "<p>hi</p>")])])] ["a", "b", "c"] =
      [("a", .dict [("b", .dict [])])] ∧
    ([("a", JsonValue.dict [("b", JsonValue.dict [])])] : Entries) ≠ [] :=
  ⟨rfl, rfl, by simp⟩

/-- Claim C1 (amended): for every non-empty key path and non-mapping leaf
value, building the path into an otherwise-empty document and pruning the
same path removes exactly the leaf: what remains is the chain of now-empty
nested mappings along the path's proper prefix — the empty document exactly
when the path has a single segment. -/
theorem c1_build_then_prune (segs : List String) (v : JsonValue)
    (hne : segs ≠ []) (hv : v.isDict = false) :
    ∃ e, process_put_build segs v = .dict e ∧
      process_delete_internal e segs = emptyChain segs.dropLast := by
  cases segs with
  | nil => exact absurd rfl hne
  | cons s rest =>
    refine ⟨[(s, specNest rest v)], ?_, prune_specNest rest s v hv⟩
    rw [process_put_build_eq_specNest]
    rfl

/-- Claim C1 witness: the amended statement at the spec's own example. -/
theorem c1_build_then_prune_witness :
    ∃ e, process_put_build ["a", "b", "c"] (JsonValue.str "<p>hi</p>") =
        .dict e ∧
      process_delete_internal e ["a", "b", "c"] =
        emptyChain (["a", "b", "c"].dropLast) :=
  c1_build_then_prune ["a", "b", "c"] (JsonValue.str "<p>hi</p>") (by simp) rfl

/-- Claim C2 counterexample: pruning `\x7ba: "x", b: "y"\x7d` with the path
`a.b` removes BOTH keys — after `a` (non-mapping) is deleted the loop goes
on at the same level and also deletes `b` — contradicting "at most one key
is removed per call". -/
theorem c2_two_keys_removed :
    process_delete_internal
      [("a", JsonValue.str "x"), ("b", JsonValue.str "y")] ["a", "b"] = [] ∧
    dictKeys [("a", JsonValue.str "x"), ("b", JsonValue.str "y")] =
      ["a", "b"] :=
  ⟨rfl, rfl⟩

/-- Claim C2 (amended): a single pruner call may remove several keys,
because the traversal does not stop after a deletion or an absent segment;
but every key it removes from the top level is one of the path's segments,
no key is ever added, and a key bound to a nested mapping is never removed
(only keys bound to non-mapping values can disappear). -/
theorem c2_removed_keys_are_segments (d : Entries) (segs : List String) :
    (∀ k, k ∈ dictKeys (process_delete_internal d segs) → k ∈ dictKeys d) ∧
    (∀ k, k ∈ dictKeys d → k ∉ segs →
      k ∈ dictKeys (process_delete_internal d segs)) ∧
    (∀ k sub, dictGet d k = some (.dict sub) →
      ∃ sub2, dictGet (process_delete_internal d segs) k = some (.dict sub2)) := by
  refine ⟨fun k h => dictKeys_prune_subset segs d h,
    fun k hm hn => mem_dictKeys_prune_of_not_mem hm hn,
    fun k sub h => ?_⟩
  obtain ⟨sub2, h2⟩ := getPath_dict_preserved segs d [k] sub
    ((getPath_singleton d k).trans h)
  exact ⟨sub2, (getPath_singleton _ k).symm.trans h2⟩

/-- Claim C2 witness: the amended statement at a concrete document — the
non-segment key `b` survives pruning with path `a.c`, and keeps its
mapping value. -/
theorem c2_removed_keys_are_segments_witness :
    "b" ∈ dictKeys (process_delete_internal
      [("a", JsonValue.str "x"), ("b", JsonValue.dict [])] ["a", "c"]) ∧
    ∃ sub2, dictGet (process_delete_internal
      [("a", JsonValue.str "x"), ("b", JsonValue.dict [])] ["a", "c"]) "b" =
      some (.dict sub2) :=
  ⟨(c2_removed_keys_are_segments
      [("a", JsonValue.str "x"), ("b", JsonValue.dict [])] ["a", "c"]).2.1
      "b" (by decide) (by decide),
   (c2_removed_keys_are_segments
      [("a", JsonValue.str "x"), ("b", JsonValue.dict [])] ["a", "c"]).2.2
      "b" [] rfl⟩

/-- Claim C3 counterexample: with document `\x7bb: "y"\x7d` and path `a.b`,
the segment `a` is absent, yet the call does NOT stop: it goes on at the
same level, finds `b` and deletes it, so the document changes. -/
theorem c3_absent_segment_does_not_stop :
    dictGet [("b", JsonValue.str "y")] "a" = none ∧
    process_delete_internal [("b", JsonValue.str "y")] ["a", "b"] = [] ∧
    ([] : Entries) ≠ [("b", JsonValue.str "y")] :=
  ⟨rfl, rfl, by simp⟩

/-- Claim C3 (amended): an absent segment is merely skipped — that step
changes nothing and does not descend — and the traversal continues with
the remaining segments at the same mapping level (so later segments can
still be examined and deleted). -/
theorem c3_absent_segment_skipped (d : Entries) (s : String)
    (rest : List String) (h : dictGet d s = none) :
    process_delete_internal d (s :: rest) = process_delete_internal d rest :=
  prune_cons_none h rest

/-- Claim C3 witness: the amended statement at the counterexample's input. -/
theorem c3_absent_segment_skipped_witness :
    process_delete_internal [("b", JsonValue.str "y")] ["a", "b"] =
      process_delete_internal [("b", JsonValue.str "y")] ["b"] :=
  c3_absent_segment_skipped [("b", JsonValue.str "y")] "a" ["b"] rfl

/-- Claim C4: the pruner never removes a key bound to a nested mapping:
every path of `D` that leads to a mapping before the call still leads to a
mapping after it (the mapping may itself have been pruned along the key
path, which in the source mutates the same dict object in place). -/
theorem c4_mapping_keys_preserved (d : Entries) (segs p : List String)
    (sub : Entries) (h : getPath d p = some (.dict sub)) :
    ∃ sub2, getPath (process_delete_internal d segs) p = some (.dict sub2) :=
  getPath_dict_preserved segs d p sub h

/-- Claim C4 witness: key `a` holds a mapping and is still a mapping after
pruning the path `a.b` through it. -/
theorem c4_mapping_keys_preserved_witness :
    ∃ sub2, getPath (process_delete_internal
      [("a", JsonValue.dict [("b", JsonValue.str "x")])] ["a", "b"]) ["a"] =
      some (.dict sub2) :=
  c4_mapping_keys_preserved [("a", JsonValue.dict [("b", JsonValue.str "x")])]
    ["a", "b"] ["a"] [("b", JsonValue.str "x")] rfl

/-- Claim C5: for every non-blank hook key and every payload carrying hook
content, `HtmlHookRESTHandler.process_put` returns exactly the right-nested
one-entry mappings along the key's segments, with the content at the
innermost position, placed under the reserved top-level html-hooks key. -/
theorem c5_hook_put_builds_nested_mapping (request : Entries)
    (payload : JsonValue) (k : String) (content : JsonValue)
    (hkey : dictGet request "key" = some (.str k)) (hne : k ≠ "")
    (hcontent : dictGet (hookConvertJsonToEntity payload) "hook_content" =
      some content) :
    htmlHook_process_put request payload =
      .ret [] (some [(HTML_HOOKS, specNest (keySplit k) content)]) := by
  simp [htmlHook_process_put, hcontent, hkey, jsonFalsy, hne,
    process_put_build_eq_specNest]

/-- Claim C5 witness: the statement at the key `a.b.c` and content `V`. -/
theorem c5_hook_put_builds_nested_mapping_witness :
    htmlHook_process_put [("key", JsonValue.str "a.b.c")]
      (.dict [("hook_content", JsonValue.str "V")]) =
      .ret []
        (some [(HTML_HOOKS, specNest (keySplit "a.b.c") (JsonValue.str "V"))]) :=
  c5_hook_put_builds_nested_mapping [("key", JsonValue.str "a.b.c")]
    (.dict [("hook_content", JsonValue.str "V")]) "a.b.c" (JsonValue.str "V")
    rfl (by decide) rfl

/-- Claim C6: a PUT whose parsed request object lacks the `payload` field
answers a single 400 and returns before any merge or save, for any
subclass's `process_put`; likewise a hook PUT whose payload carries no
`hook_content` answers a single 400 and returns before any merge or save.
In both cases nothing is handed to `save_settings`, so the persisted
settings document is unchanged. -/
theorem c6_missing_payload_yields_400 :
    (∀ (loads : String → Option JsonValue)
        (process_put : Entries → JsonValue → ProcessPutRet)
        (postprocess_put : Entries → Entries → Entries)
        (saveOk : Entries → Bool) (requestParam : String)
        (xsrfOk canEdit : Bool) (courseDict : Entries) (request : Entries),
      requestParam ≠ "" →
      loads requestParam = some (.dict request) →
      jsonFalsy ((dictGet request "key").getD .null) = false →
      dictGet request "payload" = none →
      courseYaml_put loads process_put postprocess_put saveOk requestParam
        xsrfOk canEdit courseDict =
        .result [(400, "Request missing \"payload\" parameter.")] none) ∧
    (∀ (loads : String → Option JsonValue) (saveOk : Entries → Bool)
        (requestParam : String) (courseDict : Entries) (request : Entries)
        (ps : String) (payload : JsonValue),
      requestParam ≠ "" →
      loads requestParam = some (.dict request) →
      jsonFalsy ((dictGet request "key").getD .null) = false →
      dictGet request "payload" = some (.str ps) →
      ps ≠ "" →
      loads ps = some payload →
      dictGet (hookConvertJsonToEntity payload) "hook_content" = none →
      courseYaml_put loads htmlHook_process_put htmlHook_postprocess_put saveOk
        requestParam true true courseDict =
        .result [(400, "Payload missing \"hook_content\" parameter.")] none) := by
  constructor
  · intro loads process_put postprocess_put saveOk requestParam xsrfOk canEdit
      courseDict request h1 h2 h3 h4
    simp [courseYaml_put, h1, h2, h3, h4,
      show jsonFalsy JsonValue.null = true from rfl]
  · intro loads saveOk requestParam courseDict request ps payload h1 h2 h3 h4
      h5 h6 h7
    simp [courseYaml_put, h1, h2, h3, h4, h6,
      show jsonFalsy (JsonValue.str ps) = false by simp [jsonFalsy, h5],
      htmlHook_process_put, h7]

/-- Claim C6 witness: both halves at concrete requests. -/
theorem c6_missing_payload_yields_400_witness :
    courseYaml_put (fun _ => some (.dict [("key", JsonValue.str "k")]))
      htmlHook_process_put htmlHook_postprocess_put (fun _ => true) "R" true
      true [] = .result [(400, "Request missing \"payload\" parameter.")] none ∧
    courseYaml_put
      (fun s => if s = "P" then some (.dict []) else
        some (.dict [("key", JsonValue.str "k"), ("payload", JsonValue.str "P")]))
      htmlHook_process_put htmlHook_postprocess_put (fun _ => true) "R" true
      true [] =
      .result [(400, "Payload missing \"hook_content\" parameter.")] none :=
  ⟨c6_missing_payload_yields_400.1 (fun _ => some (.dict [("key", JsonValue.str "k")]))
      htmlHook_process_put htmlHook_postprocess_put (fun _ => true) "R" true
      true [] [("key", JsonValue.str "k")] (by decide) rfl rfl rfl,
   c6_missing_payload_yields_400.2
      (fun s => if s = "P" then some (.dict []) else
        some (.dict [("key", JsonValue.str "k"), ("payload", JsonValue.str "P")]))
      (fun _ => true) "R" []
      [("key", JsonValue.str "k"), ("payload", JsonValue.str "P")] "P"
      (.dict []) (by decide) rfl rfl rfl (by decide) rfl rfl⟩

/-- Claim C7 evidence (code bug): a PUT that passes every well-formedness,
token and permission check but whose merged settings document fails the
save-time validation gets TWO responses — `412 Validation error.` and then
`200 Saved.` — because the source sends the 200 unconditionally after the
412 (there is no `return` between them).  The write itself is rejected:
nothing is persisted (`none`). -/
theorem c7_save_failure_sends_412_then_200 :
    courseYaml_put
      (fun s => if s = "PAY" then some (.dict [("f", JsonValue.str "v")])
        else some (.dict [("key", JsonValue.str "k"),
          ("payload", JsonValue.str "PAY")]))
      (courseSettings_process_put
        (fun p => match p with | .dict d => d | _ => []) (fun _ => []))
      courseYaml_postprocess_put (fun _ => false) "REQ" true true [] =
      .result [(412, "Validation error."), (200, "Saved.")] none := by
  simp [courseYaml_put, courseSettings_process_put, jsonFalsy, dictGet,
    deepDictMerge, dictSet, courseYaml_postprocess_put]

/-- Claim C8: when every segment of the path, the final one included,
resolves to a nested mapping, the pruner is a complete no-op: the document
is returned entirely unchanged, all sibling bindings included. -/
theorem c8_full_mapping_path_is_noop (d : Entries) (segs : List String)
    (h : allDictsAlong d segs = true) :
    process_delete_internal d segs = d :=
  prune_allDicts segs d h

/-- Claim C8 witness: pruning the path `a` through a document whose `a`
holds a mapping changes nothing. -/
theorem c8_full_mapping_path_is_noop_witness :
    process_delete_internal
      [("a", JsonValue.dict [("x", JsonValue.str "s")]),
       ("b", JsonValue.str "t")] ["a"] =
      [("a", JsonValue.dict [("x", JsonValue.str "s")]),
       ("b", JsonValue.str "t")] :=
  c8_full_mapping_path_is_noop
    [("a", JsonValue.dict [("x", JsonValue.str "s")]),
     ("b", JsonValue.str "t")] ["a"] rfl

/-- Claim C9: the course-settings REST handler never allows DELETE: with a
valid token the response is `401 Access denied.` whatever the caller's edit
permission, and in no branch (valid or invalid token) is anything handed to
`save_settings`, so the settings document is never written. -/
theorem c9_settings_delete_never_allowed (processDelete : Option Entries)
    (saveOk : Entries → Bool) (canEdit : Bool) :
    courseYaml_delete courseSettings_is_deletion_allowed processDelete saveOk
      true canEdit = .result [(401, "Access denied.")] none ∧
    courseYaml_delete courseSettings_is_deletion_allowed processDelete saveOk
      false canEdit = .result [] none := by
  constructor <;>
    simp [courseYaml_delete, courseSettings_is_deletion_allowed]

/-- Claim C10: a hook DELETE prunes the key path twice — inside the
reserved html-hooks sub-mapping and again from the document's top level —
so when both places hold a scalar leaf at the path, both entries are gone
afterwards: the hook under the reserved key and the legacy top-level copy. -/
theorem c10_hook_delete_prunes_reserved_and_root (doc sub : Entries)
    (k : String) (h1 : dictGet doc HTML_HOOKS = some (.dict sub))
    (h2 : HTML_HOOKS ∉ keySplit k)
    (h3 : leafRemovable sub (keySplit k) = true)
    (h4 : leafRemovable doc (keySplit k) = true) :
    ∃ doc2, htmlHook_process_delete doc k = some doc2 ∧
      (∃ sub2, dictGet doc2 HTML_HOOKS = some (.dict sub2) ∧
        getPath sub2 (keySplit k) = none) ∧
      getPath doc2 (keySplit k) = none := by
  cases hsegs : keySplit k with
  | nil =>
    rw [hsegs] at h4
    exact absurd h4 (by simp [leafRemovable])
  | cons s0 rest =>
    rw [hsegs] at h2 h3 h4
    have hs0 : s0 ≠ HTML_HOOKS := fun e => h2 (e ▸ List.mem_cons_self s0 rest)
    refine ⟨process_delete_internal
      (dictSet doc HTML_HOOKS
        (.dict (process_delete_internal sub (s0 :: rest)))) (s0 :: rest),
      ?_, ⟨process_delete_internal sub (s0 :: rest), ?_, ?_⟩, ?_⟩
    · simp only [htmlHook_process_delete, h1, hsegs]
    · rw [dictGet_prune_of_not_mem (s0 :: rest) _ h2]
      exact dictGet_dictSet_self doc HTML_HOOKS _
    · exact getPath_prune_of_leafRemovable (s0 :: rest) sub h3
    · apply getPath_prune_of_leafRemovable
      rw [leafRemovable_dictSet_ne _ h1 hs0 rest]
      exact h4

/-- Claim C10 witness: a document holding the hook `a` both under the
reserved key and as a legacy top-level entry loses both on DELETE. -/
theorem c10_hook_delete_prunes_reserved_and_root_witness :
    ∃ doc2, htmlHook_process_delete
      [(HTML_HOOKS, JsonValue.dict [("a", JsonValue.str "x")]),
       ("a", JsonValue.str "y")] "a" = some doc2 ∧
      (∃ sub2, dictGet doc2 HTML_HOOKS = some (.dict sub2) ∧
        getPath sub2 (keySplit "a") = none) ∧
      getPath doc2 (keySplit "a") = none :=
  c10_hook_delete_prunes_reserved_and_root
    [(HTML_HOOKS, JsonValue.dict [("a", JsonValue.str "x")]),
     ("a", JsonValue.str "y")] [("a", JsonValue.str "x")] "a"
    rfl (by decide) (by decide) (by decide)
